import Mathlib

/-
Verification of the Minesweeper inference engine (src/minesweeper.py).

Shallow embedding conventions:
* a board coordinate is a pair of integers (Python tuples of ints may be
  negative before the bounds check, so we use ℤ × ℤ);
* Python `set` becomes `Finset`, the knowledge list becomes `List Sentence`;
* Python `int` counts become ℤ (they may go negative via subtraction);
* the unbounded `while something_changed` loop of `update_knowledge` is
  modelled with explicit fuel, returning `none` when the fuel is exhausted;
* `random.choice(seq)` is modelled by an externally supplied natural number
  reduced modulo the length of the candidate list, and `random.randrange`
  draws are modelled by an externally supplied stream of draws.
-/

abbrev Cell := ℤ × ℤ

/-- `Sentence(cells, count)` from src/minesweeper.py: a set of board cells
together with the number of them that are mines. -/
structure Sentence where
  cells : Finset Cell
  count : ℤ
deriving DecidableEq

namespace Sentence

/-- `Sentence.known_mines`: the full cell set when `len(cells) == count > 0`,
otherwise the empty set. -/
def known_mines (s : Sentence) : Finset Cell :=
  if (s.cells.card : ℤ) = s.count ∧ 0 < s.count then s.cells else ∅

/-- `Sentence.known_safes`: the full cell set when `count == 0`, otherwise the
empty set. -/
def known_safes (s : Sentence) : Finset Cell :=
  if s.count = 0 then s.cells else ∅

/-- `Sentence.mark_mine`: if the cell is present, remove it and decrement the
count; otherwise a no-op. -/
def mark_mine (s : Sentence) (c : Cell) : Sentence :=
  if c ∈ s.cells then ⟨s.cells.erase c, s.count - 1⟩ else s

/-- `Sentence.mark_safe`: if the cell is present, remove it leaving the count
unchanged; otherwise a no-op. -/
def mark_safe (s : Sentence) (c : Cell) : Sentence :=
  if c ∈ s.cells then ⟨s.cells.erase c, s.count⟩ else s

end Sentence

/-- The combined effect on one sentence of calling `Sentence.mark_safe` once
for each cell of a set `D` (the calls commute, so the set denotation is
order-independent): remove `D` from the cells, leave the count unchanged. -/
def Sentence.mark_safes (s : Sentence) (D : Finset Cell) : Sentence :=
  ⟨s.cells \ D, s.count⟩

/-- The combined effect on one sentence of calling `Sentence.mark_mine` once
for each cell of a set `D`: remove `D` from the cells and decrement the count
once for each removed cell that was actually present. -/
def Sentence.mark_mines (s : Sentence) (D : Finset Cell) : Sentence :=
  ⟨s.cells \ D, s.count - ((s.cells ∩ D).card : ℤ)⟩

/-- `MinesweeperAI` from src/minesweeper.py: grid dimensions, the moves made,
the cells known to be mines or safe, and the knowledge base of sentences. -/
structure AI where
  height : ℤ
  width : ℤ
  moves_made : Finset Cell
  mines : Finset Cell
  safes : Finset Cell
  knowledge : List Sentence
deriving DecidableEq

namespace AI

/-- `MinesweeperAI.__init__(height, width)`. -/
def init (h w : ℤ) : AI := ⟨h, w, ∅, ∅, ∅, []⟩

/-- `MinesweeperAI.mark_mine`: add the cell to `self.mines` and forward
`mark_mine` to every sentence in the knowledge base. -/
def mark_mine (ai : AI) (c : Cell) : AI :=
  { ai with mines := insert c ai.mines,
            knowledge := ai.knowledge.map (fun s => s.mark_mine c) }

/-- `MinesweeperAI.mark_safe`: add the cell to `self.safes` and forward
`mark_safe` to every sentence in the knowledge base. -/
def mark_safe (ai : AI) (c : Cell) : AI :=
  { ai with safes := insert c ai.safes,
            knowledge := ai.knowledge.map (fun s => s.mark_safe c) }

end AI

/-- The eight (di, dj) offsets of the two nested loops in `add_knowledge`,
with (0, 0) skipped. -/
def neighborOffsets : List Cell :=
  [(-1, -1), (-1, 0), (-1, 1), (0, -1), (0, 1), (1, -1), (1, 0), (1, 1)]

/-- The in-bounds 8-neighborhood computed at lines 203-212 of
src/minesweeper.py: all cells `(i+di, j+dj)` with both coordinates inside
`[0, height) × [0, width)`, excluding the cell itself. -/
def neighborsOf (h w : ℤ) (cell : Cell) : Finset Cell :=
  ((neighborOffsets.map (fun d => (cell.1 + d.1, cell.2 + d.2))).filter
    (fun p => 0 ≤ p.1 ∧ p.1 < h ∧ 0 ≤ p.2 ∧ p.2 < w)).toFinset

namespace AI

/-- Steps 1-4 of `MinesweeperAI.add_knowledge` (lines 198-221), before the
final `update_knowledge()` call: record the move, mark the cell safe, filter
the neighborhood down to the undetermined cells, adjust the count by the
number of known mines remaining in the already-filtered set (the filtered set
is the reassigned `neighbors` variable of line 216), and append the new
sentence when the filtered set is non-empty. -/
def add_knowledge_core (ai : AI) (cell : Cell) (count : ℤ) : AI :=
  let ai1 := { ai with moves_made := insert cell ai.moves_made }
  let ai2 := ai1.mark_safe cell
  let nbrs := neighborsOf ai.height ai.width cell
  let undet := (nbrs \ ai2.safes) \ ai2.mines
  let count2 := count - ((undet.filter (fun n => n ∈ ai2.mines)).card : ℤ)
  if undet ≠ ∅ then { ai2 with knowledge := ai2.knowledge ++ [⟨undet, count2⟩] }
  else ai2

end AI

/-- The body of the inner `for sentence2 in self.knowledge` loop of
`MinesweeperAI.update_knowledge` (lines 261-270): skip identical (by value)
sentences, and when `sentence2.cells ⊆ sentence1.cells` collect the
difference sentence unless it is already in the knowledge base, already
collected, or empty. -/
def inferPair (kn : List Sentence) (s1 : Sentence) (acc : List Sentence)
    (s2 : Sentence) : List Sentence :=
  if s1 = s2 then acc
  else if s2.cells ⊆ s1.cells then
    letI ns : Sentence := ⟨s1.cells \ s2.cells, s1.count - s2.count⟩
    if ns ∉ kn ∧ ns ∉ acc ∧ ns.cells ≠ ∅ then acc ++ [ns] else acc
  else acc

/-- The inner `for sentence2 in self.knowledge` loop, for a fixed
`sentence1`. -/
def inferRow (kn : List Sentence) (acc : List Sentence) (s1 : Sentence) :
    List Sentence :=
  kn.foldl (inferPair kn s1) acc

/-- The inference block of `MinesweeperAI.update_knowledge` (lines 258-270):
the `new_sentences` list collected by the two nested loops. -/
def inferNew (kn : List Sentence) : List Sentence :=
  kn.foldl (inferRow kn) []

namespace AI

/-- The `new_safes` set gathered at lines 235-241: the union of `known_safes`
over all sentences in the knowledge base. -/
def newSafesOf (ai : AI) : Finset Cell :=
  ai.knowledge.foldl (fun acc s => acc ∪ s.known_safes) ∅

/-- The `new_mines` set gathered at lines 236-241. -/
def newMinesOf (ai : AI) : Finset Cell :=
  ai.knowledge.foldl (fun acc s => acc ∪ s.known_mines) ∅

/-- The cells actually marked safe in one pass: those of `new_safes` passing
the `cell not in self.safes` guard of line 245. -/
def dSafesOf (ai : AI) : Finset Cell := ai.newSafesOf \ ai.safes

/-- The cells actually marked as mines in one pass: those of `new_mines`
passing the `cell not in self.mines` guard of line 251. -/
def dMinesOf (ai : AI) : Finset Cell := ai.newMinesOf \ ai.mines

/-- The knowledge base after the marking loops (safes first, then mines, as
in lines 244-253) and the removal of empty sentences (line 256). -/
def knowledgeMid (ai : AI) : List Sentence :=
  (ai.knowledge.map
    (fun s : Sentence => (s.mark_safes ai.dSafesOf).mark_mines ai.dMinesOf)).filter
    (fun s => s.cells ≠ ∅)

/-- One iteration of the `while something_changed` loop of
`MinesweeperAI.update_knowledge` (lines 234-273), returning the updated state
and the `something_changed` flag.  The `for cell in new_safes` /
`for cell in new_mines` marking loops iterate over Python sets and only act on
cells passing the `not in` guard; each loop is modelled by its
order-independent set denotation: the cells actually marked are added to the
known set in one step and removed from every sentence in one step. -/
def updatePass (ai : AI) : AI × Bool :=
  ⟨⟨ai.height, ai.width, ai.moves_made,
    ai.mines ∪ ai.dMinesOf, ai.safes ∪ ai.dSafesOf,
    ai.knowledgeMid ++ inferNew ai.knowledgeMid⟩,
   decide (ai.dSafesOf ≠ ∅) || decide (ai.dMinesOf ≠ ∅) ||
     decide (inferNew ai.knowledgeMid ≠ [])⟩

/-- The `while something_changed` loop of `MinesweeperAI.update_knowledge`
(lines 232-273), with explicit fuel: `none` means the fuel ran out before the
loop reached a pass with no change. -/
def updateLoop : ℕ → AI → Option AI
  | 0, _ => none
  | n + 1, ai =>
    let p := ai.updatePass
    if p.2 then updateLoop n p.1 else some p.1

/-- `MinesweeperAI.add_knowledge`: the core steps followed by
`update_knowledge()` (with fuel for the latter's loop). -/
def add_knowledge (fuel : ℕ) (ai : AI) (cell : Cell) (count : ℤ) : Option AI :=
  updateLoop fuel (ai.add_knowledge_core cell count)

/-- The candidate list built by `MinesweeperAI.make_random_move`
(lines 290-295): grid cells in row-major order that are neither in
`moves_made` nor in `mines`. -/
def randomChoices (ai : AI) : List Cell :=
  ((List.range ai.height.toNat).flatMap (fun i : ℕ =>
    (List.range ai.width.toNat).map (fun j : ℕ => ((i : ℤ), (j : ℤ))))).filter
    (fun c => c ∉ ai.moves_made ∧ c ∉ ai.mines)

/-- `MinesweeperAI.make_random_move`: `random.choice(choices)` when the
candidate list is non-empty, else `None`.  The uniform draw of
`random.choice` is modelled by an external natural number `r` reduced modulo
the list length. -/
def make_random_move (ai : AI) (r : ℕ) : Option Cell :=
  letI cs := randomChoices ai
  if h : cs.length = 0 then none
  else some (cs.get ⟨r % cs.length, Nat.mod_lt _ (Nat.pos_of_ne_zero h)⟩)

end AI

/-- Claim C6: `known_safes` returns the full cell set if `count == 0` and the
empty set otherwise; `known_mines` returns the full cell set if
`len(cells) == count` and `count > 0`, and the empty set otherwise. -/
theorem claim_C6 (s : Sentence) :
    (s.count = 0 → s.known_safes = s.cells) ∧
    (s.count ≠ 0 → s.known_safes = ∅) ∧
    ((s.cells.card : ℤ) = s.count ∧ 0 < s.count → s.known_mines = s.cells) ∧
    (¬ ((s.cells.card : ℤ) = s.count ∧ 0 < s.count) → s.known_mines = ∅) := by
  refine ⟨fun h => ?_, fun h => ?_, fun h => ?_, fun h => ?_⟩ <;>
    simp [Sentence.known_safes, Sentence.known_mines, h]

/-- Concrete instance of claim C6: a singleton sentence with count 0 yields its
cell as safe, and a singleton sentence with count 1 yields its cell as a mine. -/
theorem claim_C6_witness :
    (Sentence.mk {((0 : ℤ), (0 : ℤ))} 0).known_safes = {((0 : ℤ), (0 : ℤ))} ∧
    (Sentence.mk {((0 : ℤ), (0 : ℤ))} 1).known_mines = {((0 : ℤ), (0 : ℤ))} :=
  ⟨(claim_C6 _).1 rfl, (claim_C6 _).2.2.1 (by decide)⟩

/-- The spec's scenario 2 on a 3×3 grid: (1, 0) is already a known mine, and
(1, 1) is already known safe, so that the undetermined neighbors of (0, 0) are
exactly {(0, 1)}. -/
def aiScenario2 : AI := (AI.init 3 3 |>.mark_mine (1, 0)).mark_safe (1, 1)

/-- Claim C1 is a code bug: line 216 of src/minesweeper.py removes the known
mines from `neighbors` before line 217 counts the known mines in (the
reassigned) `neighbors`, so the supplied count is never decremented, contrary
to the code's own comment at lines 214-215 and to the spec.  In scenario 2,
revealing (0, 0) with count 1 while (1, 0) is a known mine appends the
statement {(0, 1)} with count 1 (the spec requires count 0), and propagation
then marks (0, 1) as a known MINE instead of known safe. -/
theorem claim_C1_code_bug :
    (aiScenario2.add_knowledge_core (0, 0) 1).knowledge =
      [⟨{((0 : ℤ), (1 : ℤ))}, 1⟩] ∧
    (AI.add_knowledge 3 aiScenario2 (0, 0) 1).map
      (fun s => decide (((0 : ℤ), (1 : ℤ)) ∈ s.mines) &&
        decide (((0 : ℤ), (1 : ℤ)) ∉ s.safes) &&
        decide (s.knowledge = [])) = some true := by
  decide

/-- A 3×3 engine that already knows the two true mines (1, 0) and (1, 1). -/
def aiTwoKnownMines : AI := (AI.init 3 3 |>.mark_mine (1, 0)).mark_mine (1, 1)

/-- Claim C4 is a code bug (same root cause as C1): with mines {(1, 0), (1, 1)}
already known, the truthful observation `add_knowledge((0, 0), 2)` leaves the
unadjusted count 2 on the single-cell statement {(0, 1)}, so the knowledge
base ends up containing a statement with `count > len(cells)`, violating the
count-consistency invariant. -/
theorem claim_C4_code_bug :
    (AI.add_knowledge 3 aiTwoKnownMines (0, 0) 2).map
      (fun s => decide (s.knowledge = [⟨{((0 : ℤ), (1 : ℤ))}, 2⟩])) = some true ∧
    (AI.add_knowledge 3 aiTwoKnownMines (0, 0) 2).map
      (fun s => s.knowledge.any
        (fun st => decide ((st.cells.card : ℤ) < st.count))) = some true := by
  decide

/-- The state reached by recording an out-of-bounds observation on a fresh
3×3 engine. -/
def aiOutOfBounds : AI := ⟨3, 3, {((5 : ℤ), (5 : ℤ))}, ∅, {((5 : ℤ), (5 : ℤ))}, []⟩

/-- Counterexample to claim C7: `add_knowledge` performs no precondition
check.  Called with the out-of-bounds cell (5, 5) on a fresh 3×3 engine it
returns normally and silently records the cell in `moves_made` and `safes`;
called again with the same (already-played) cell it again returns normally. -/
theorem claim_C7_counterexample :
    (AI.add_knowledge 2 (AI.init 3 3) (5, 5) 0).map
      (fun s => decide (((5 : ℤ), (5 : ℤ)) ∈ s.moves_made) &&
        decide (((5 : ℤ), (5 : ℤ)) ∈ s.safes) &&
        decide (s.knowledge = [])) = some true ∧
    (AI.add_knowledge 2 aiOutOfBounds (5, 5) 0).map
      (fun s => decide (((5 : ℤ), (5 : ℤ)) ∈ s.moves_made)) = some true := by
  decide

/-- Claim C7 amended: `add_knowledge` validates nothing.  For every state and
every cell — already played or out of bounds included — the call proceeds and
records the cell in `moves_made` and `safes`, with no failure signal (the
Python body contains no precondition check, assertion or raise). -/
theorem claim_C7 (ai : AI) (cell : Cell) (count : ℤ) :
    cell ∈ (ai.add_knowledge_core cell count).moves_made ∧
    cell ∈ (ai.add_knowledge_core cell count).safes := by
  simp only [AI.add_knowledge_core]
  split_ifs <;> exact ⟨Finset.mem_insert_self _ _, Finset.mem_insert_self _ _⟩

/-- `inferPair` never discards what has already been collected. -/
lemma mem_inferPair_of_mem {kn acc : List Sentence} {s1 s2 x : Sentence}
    (h : x ∈ acc) : x ∈ inferPair kn s1 acc s2 := by
  unfold inferPair
  split_ifs <;> simp [h]

/-- The inner loop never discards what has already been collected. -/
lemma mem_foldl_inferPair_of_mem {kn : List Sentence} {s1 x : Sentence} :
    ∀ (l acc : List Sentence), x ∈ acc → x ∈ l.foldl (inferPair kn s1) acc
  | [], _, h => h
  | _ :: t, acc, h =>
    mem_foldl_inferPair_of_mem t (inferPair _ _ acc _) (mem_inferPair_of_mem h)

/-- The outer loop never discards what has already been collected. -/
lemma mem_foldl_inferRow_of_mem {kn : List Sentence} {x : Sentence} :
    ∀ (l acc : List Sentence), x ∈ acc → x ∈ l.foldl (inferRow kn) acc
  | [], _, h => h
  | _ :: t, acc, h =>
    mem_foldl_inferRow_of_mem t _ (mem_foldl_inferPair_of_mem kn acc h)

/-- Processing the pair `(s1, s2)` guarantees the difference sentence is
present afterwards, in the knowledge base or in the collected list. -/
lemma inferPair_produces {kn acc : List Sentence} {s1 s2 : Sentence}
    (h1 : s1 ≠ s2) (h2 : s2.cells ⊆ s1.cells)
    (h3 : s1.cells \ s2.cells ≠ ∅) :
    (⟨s1.cells \ s2.cells, s1.count - s2.count⟩ : Sentence) ∈ kn ∨
      (⟨s1.cells \ s2.cells, s1.count - s2.count⟩ : Sentence) ∈
        inferPair kn s1 acc s2 := by
  unfold inferPair
  rw [if_neg h1, if_pos h2]
  by_cases hk : (⟨s1.cells \ s2.cells, s1.count - s2.count⟩ : Sentence) ∈ kn
  · exact Or.inl hk
  by_cases ha : (⟨s1.cells \ s2.cells, s1.count - s2.count⟩ : Sentence) ∈ acc
  · refine Or.inr ?_
    split_ifs <;> simp [ha]
  · refine Or.inr ?_
    rw [if_pos ⟨hk, ha, h3⟩]
    simp

/-- Running the inner loop over a list containing `s2` guarantees the
difference sentence for `(s1, s2)` is present afterwards. -/
lemma inferRow_produces {kn : List Sentence} {s1 s2 : Sentence}
    (h1 : s1 ≠ s2) (h2 : s2.cells ⊆ s1.cells)
    (h3 : s1.cells \ s2.cells ≠ ∅) :
    ∀ (l acc : List Sentence), s2 ∈ l →
      (⟨s1.cells \ s2.cells, s1.count - s2.count⟩ : Sentence) ∈ kn ∨
        (⟨s1.cells \ s2.cells, s1.count - s2.count⟩ : Sentence) ∈
          l.foldl (inferPair kn s1) acc
  | a :: t, acc, hmem => by
    rcases List.mem_cons.mp hmem with rfl | ht
    · rcases @inferPair_produces kn acc _ _ h1 h2 h3 with h | h
      · exact Or.inl h
      · exact Or.inr (mem_foldl_inferPair_of_mem t _ h)
    · exact inferRow_produces h1 h2 h3 t (inferPair kn s1 acc a) ht

/-- Running the outer loop over a list containing `s1` guarantees the
difference sentence for `(s1, s2)` (with `s2` in the knowledge base) is
present afterwards. -/
lemma inferOuter_produces {kn : List Sentence} {s1 s2 : Sentence}
    (hB : s2 ∈ kn) (h1 : s1 ≠ s2) (h2 : s2.cells ⊆ s1.cells)
    (h3 : s1.cells \ s2.cells ≠ ∅) :
    ∀ (l acc : List Sentence), s1 ∈ l →
      (⟨s1.cells \ s2.cells, s1.count - s2.count⟩ : Sentence) ∈ kn ∨
        (⟨s1.cells \ s2.cells, s1.count - s2.count⟩ : Sentence) ∈
          l.foldl (inferRow kn) acc
  | a :: t, acc, hmem => by
    rcases List.mem_cons.mp hmem with rfl | ht
    · rcases inferRow_produces h1 h2 h3 kn acc hB with h | h
      · exact Or.inl h
      · exact Or.inr (mem_foldl_inferRow_of_mem t _ h)
    · exact inferOuter_produces hB h1 h2 h3 t (inferRow kn acc a) ht

/-- Claim C2 (subset-soundness of the resolution step, lines 258-273 of
src/minesweeper.py): if `A` and `B` are in the knowledge base handed to the
resolution step, distinct by value, with `B.cells ⊆ A.cells` and
`A.cells − B.cells` non-empty, then after the step appends `inferNew` the
statement with cells `A.cells − B.cells` and count `A.count − B.count` is in
the knowledge base (it is either already present, or freshly collected). -/
theorem claim_C2 (kn : List Sentence) (A B : Sentence)
    (hA : A ∈ kn) (hB : B ∈ kn) (hne : A ≠ B) (hsub : B.cells ⊆ A.cells)
    (hdiff : A.cells \ B.cells ≠ ∅) :
    (⟨A.cells \ B.cells, A.count - B.count⟩ : Sentence) ∈ kn ++ inferNew kn := by
  rcases inferOuter_produces hB hne hsub hdiff kn [] hA with h | h
  · exact List.mem_append_left _ h
  · exact List.mem_append_right _ h

/-- Concrete instance of claim C2, the spec's scenario 3: from
`{(0,0),(0,1),(0,2)} = 1` and `{(0,0),(0,1)} = 1`, the resolution step
produces `{(0,2)} = 0`. -/
theorem claim_C2_witness :
    (⟨{((0 : ℤ), (2 : ℤ))}, 0⟩ : Sentence) ∈
      [(⟨{((0 : ℤ), (0 : ℤ)), ((0 : ℤ), (1 : ℤ)), ((0 : ℤ), (2 : ℤ))}, 1⟩ : Sentence),
       ⟨{((0 : ℤ), (0 : ℤ)), ((0 : ℤ), (1 : ℤ))}, 1⟩] ++
      inferNew
        [⟨{((0 : ℤ), (0 : ℤ)), ((0 : ℤ), (1 : ℤ)), ((0 : ℤ), (2 : ℤ))}, 1⟩,
         ⟨{((0 : ℤ), (0 : ℤ)), ((0 : ℤ), (1 : ℤ))}, 1⟩] := by
  have h := claim_C2
    [⟨{((0 : ℤ), (0 : ℤ)), ((0 : ℤ), (1 : ℤ)), ((0 : ℤ), (2 : ℤ))}, 1⟩,
     ⟨{((0 : ℤ), (0 : ℤ)), ((0 : ℤ), (1 : ℤ))}, 1⟩]
    ⟨{((0 : ℤ), (0 : ℤ)), ((0 : ℤ), (1 : ℤ)), ((0 : ℤ), (2 : ℤ))}, 1⟩
    ⟨{((0 : ℤ), (0 : ℤ)), ((0 : ℤ), (1 : ℤ))}, 1⟩
    (by decide) (by decide) (by decide) (by decide) (by decide)
  rwa [show (⟨({((0 : ℤ), (0 : ℤ)), ((0 : ℤ), (1 : ℤ)), ((0 : ℤ), (2 : ℤ))} :
      Finset Cell) \ {((0 : ℤ), (0 : ℤ)), ((0 : ℤ), (1 : ℤ))}, 1 - 1⟩ : Sentence) =
    ⟨{((0 : ℤ), (2 : ℤ))}, 0⟩ from by decide] at h

/-- Eliminating membership in one `inferPair` application: the element was
already collected, or it is the difference sentence of the pair and passed the
three guards. -/
lemma mem_inferPair_elim {kn acc : List Sentence} {s1 s2 x : Sentence}
    (h : x ∈ inferPair kn s1 acc s2) :
    x ∈ acc ∨ (x ∉ kn ∧ x.cells ≠ ∅ ∧ s1 ≠ s2 ∧ s2.cells ⊆ s1.cells ∧
      x = ⟨s1.cells \ s2.cells, s1.count - s2.count⟩) := by
  unfold inferPair at h
  split_ifs at h with h1 h2 h3
  · exact Or.inl h
  · rcases List.mem_append.mp h with h' | h'
    · exact Or.inl h'
    · have hx := List.mem_singleton.mp h'
      subst hx
      exact Or.inr ⟨h3.1, h3.2.2, h1, h2, rfl⟩
  · exact Or.inl h
  · exact Or.inl h

/-- Eliminating membership in the inner loop's fold. -/
lemma mem_foldl_inferPair_elim {kn : List Sentence} {s1 x : Sentence} :
    ∀ (l acc : List Sentence), x ∈ l.foldl (inferPair kn s1) acc →
      x ∈ acc ∨ ∃ s2 ∈ l, x ∉ kn ∧ x.cells ≠ ∅ ∧ s1 ≠ s2 ∧
        s2.cells ⊆ s1.cells ∧ x = ⟨s1.cells \ s2.cells, s1.count - s2.count⟩
  | [], _, h => Or.inl h
  | a :: t, acc, h => by
    rcases mem_foldl_inferPair_elim t _ h with h' | ⟨s2, hs2, rest⟩
    · rcases mem_inferPair_elim h' with h'' | spec
      · exact Or.inl h''
      · exact Or.inr ⟨a, List.mem_cons_self a t, spec⟩
    · exact Or.inr ⟨s2, List.mem_cons_of_mem a hs2, rest⟩

/-- Eliminating membership in the outer loop's fold. -/
lemma mem_foldl_inferRow_elim {kn : List Sentence} {x : Sentence} :
    ∀ (l acc : List Sentence), x ∈ l.foldl (inferRow kn) acc →
      x ∈ acc ∨ ∃ s1 ∈ l, ∃ s2 ∈ kn, x ∉ kn ∧ x.cells ≠ ∅ ∧ s1 ≠ s2 ∧
        s2.cells ⊆ s1.cells ∧ x = ⟨s1.cells \ s2.cells, s1.count - s2.count⟩
  | [], _, h => Or.inl h
  | a :: t, acc, h => by
    rcases mem_foldl_inferRow_elim t _ h with h' | ⟨s1, hs1, rest⟩
    · rcases mem_foldl_inferPair_elim kn acc h' with h'' | ⟨s2, hs2, spec⟩
      · exact Or.inl h''
      · exact Or.inr ⟨a, List.mem_cons_self a t, s2, hs2, spec⟩
    · exact Or.inr ⟨s1, List.mem_cons_of_mem a hs1, rest⟩

/-- Every sentence collected by the inference block is new (not in the
knowledge base it was derived from), non-empty, and the set difference of a
subset pair of that knowledge base. -/
lemma mem_inferNew_elim {kn : List Sentence} {x : Sentence}
    (h : x ∈ inferNew kn) :
    x ∉ kn ∧ x.cells ≠ ∅ ∧ ∃ s1 ∈ kn, ∃ s2 ∈ kn, s1 ≠ s2 ∧
      s2.cells ⊆ s1.cells ∧ x = ⟨s1.cells \ s2.cells, s1.count - s2.count⟩ := by
  rcases mem_foldl_inferRow_elim kn [] h with h' | ⟨s1, hs1, s2, hs2, hk, hne, h1, h2, h3⟩
  · exact absurd h' (List.not_mem_nil x)
  · exact ⟨hk, hne, s1, hs1, s2, hs2, h1, h2, h3⟩

/-- A sequence of engine operations starting from state `s`: the reflexive
closure of `mark_mine`, `mark_safe`, the observation-recording core of
`add_knowledge`, and single passes of the `update_knowledge` loop (a full
`update_knowledge` call, and hence a full `add_knowledge` call, is a
composition of these). -/
inductive Steps : AI → AI → Prop
  | refl (s : AI) : Steps s s
  | mark_mine {s t : AI} (c : Cell) : Steps s t → Steps s (t.mark_mine c)
  | mark_safe {s t : AI} (c : Cell) : Steps s t → Steps s (t.mark_safe c)
  | add_core {s t : AI} (c : Cell) (n : ℤ) :
      Steps s t → Steps s (t.add_knowledge_core c n)
  | pass {s t : AI} : Steps s t → Steps s t.updatePass.1

/-- The fields of `add_knowledge_core`'s result other than the knowledge
base. -/
lemma add_knowledge_core_fields (ai : AI) (c : Cell) (n : ℤ) :
    (ai.add_knowledge_core c n).moves_made = insert c ai.moves_made ∧
    (ai.add_knowledge_core c n).safes = insert c ai.safes ∧
    (ai.add_knowledge_core c n).mines = ai.mines ∧
    (ai.add_knowledge_core c n).height = ai.height ∧
    (ai.add_knowledge_core c n).width = ai.width := by
  simp only [AI.add_knowledge_core]
  split_ifs <;> exact ⟨rfl, rfl, rfl, rfl, rfl⟩

/-- Counterexample to the disjointness half of claim C5: `mark_mine` followed
by `mark_safe` on the same cell leaves the cell in both `mines` and `safes` —
no operation ever enforces `safe_cells ∩ mine_cells = ∅`. -/
theorem claim_C5_counterexample :
    ((0 : ℤ), (0 : ℤ)) ∈ (((AI.init 3 3).mark_mine (0, 0)).mark_safe (0, 0)).mines ∧
    ((0 : ℤ), (0 : ℤ)) ∈ (((AI.init 3 3).mark_mine (0, 0)).mark_safe (0, 0)).safes := by
  decide

/-- Claim C5 amended: across any sequence of engine operations the sets
`safes`, `mines` and `moves_made` only grow — no operation ever removes an
element from any of them.  (The original claim's second half, that the sets
never intersect, is false of the code: see the counterexample.) -/
theorem claim_C5 (s t : AI) (h : Steps s t) :
    s.safes ⊆ t.safes ∧ s.mines ⊆ t.mines ∧ s.moves_made ⊆ t.moves_made := by
  induction h with
  | refl => exact ⟨subset_rfl, subset_rfl, subset_rfl⟩
  | mark_mine c _ ih =>
    exact ⟨ih.1, ih.2.1.trans (Finset.subset_insert _ _), ih.2.2⟩
  | mark_safe c _ ih =>
    exact ⟨ih.1.trans (Finset.subset_insert _ _), ih.2.1, ih.2.2⟩
  | add_core c n hst ih =>
    rename_i t'
    obtain ⟨hm, hs, hmi, -, -⟩ := add_knowledge_core_fields t' c n
    rw [hm, hs, hmi]
    exact ⟨ih.1.trans (Finset.subset_insert _ _), ih.2.1,
      ih.2.2.trans (Finset.subset_insert _ _)⟩
  | pass _ ih =>
    exact ⟨ih.1.trans Finset.subset_union_left,
      ih.2.1.trans Finset.subset_union_left, ih.2.2⟩

/-- Concrete instance of claim C5: after marking (1, 0) as a mine on a fresh
3×3 engine, the previously known sets are still contained in the new ones. -/
theorem claim_C5_witness :
    (AI.init 3 3).safes ⊆ ((AI.init 3 3).mark_mine (1, 0)).safes ∧
    (AI.init 3 3).mines ⊆ ((AI.init 3 3).mark_mine (1, 0)).mines ∧
    (AI.init 3 3).moves_made ⊆ ((AI.init 3 3).mark_mine (1, 0)).moves_made :=
  claim_C5 _ _ (Steps.mark_mine (1, 0) (Steps.refl _))

/-- `Sentence.mark_mine` only removes cells. -/
lemma Sentence.mark_mine_cells_subset (s : Sentence) (c : Cell) :
    (s.mark_mine c).cells ⊆ s.cells := by
  unfold Sentence.mark_mine
  split_ifs <;> first | exact Finset.erase_subset _ _ | exact subset_rfl

/-- After `Sentence.mark_mine c`, the cell `c` is gone. -/
lemma Sentence.not_mem_mark_mine (s : Sentence) (c : Cell) :
    c ∉ (s.mark_mine c).cells := by
  unfold Sentence.mark_mine
  split_ifs with h
  · exact Finset.not_mem_erase _ _
  · exact h

/-- `Sentence.mark_safe` only removes cells. -/
lemma Sentence.mark_safe_cells_subset (s : Sentence) (c : Cell) :
    (s.mark_safe c).cells ⊆ s.cells := by
  unfold Sentence.mark_safe
  split_ifs <;> first | exact Finset.erase_subset _ _ | exact subset_rfl

/-- After `Sentence.mark_safe c`, the cell `c` is gone. -/
lemma Sentence.not_mem_mark_safe (s : Sentence) (c : Cell) :
    c ∉ (s.mark_safe c).cells := by
  unfold Sentence.mark_safe
  split_ifs with h
  · exact Finset.not_mem_erase _ _
  · exact h

/-- Membership in the knowledge base produced by `add_knowledge_core`: either
an old sentence with the revealed cell marked safe, or the freshly appended
sentence over the undetermined neighbors. -/
lemma add_knowledge_core_knowledge_mem {ai : AI} {c : Cell} {n : ℤ}
    {st : Sentence} (h : st ∈ (ai.add_knowledge_core c n).knowledge) :
    (∃ s ∈ ai.knowledge, st = s.mark_safe c) ∨
      st.cells =
        (neighborsOf ai.height ai.width c \ insert c ai.safes) \ ai.mines := by
  simp only [AI.add_knowledge_core, AI.mark_safe] at h
  split_ifs at h with h1
  · rcases List.mem_append.mp h with h' | h'
    · rcases List.mem_map.mp h' with ⟨s, hs, rfl⟩
      exact Or.inl ⟨s, hs, rfl⟩
    · have hx := List.mem_singleton.mp h'
      subst hx
      exact Or.inr rfl
  · rcases List.mem_map.mp h with ⟨s, hs, rfl⟩
    exact Or.inl ⟨s, hs, rfl⟩

/-- Claim C9: at every state reachable by a sequence of engine operations
from a fresh engine, every sentence in the knowledge base has a cell set
disjoint from both `safes` and `mines`: the mark operations remove the marked
cell from every sentence, new observation sentences are built from
undetermined neighbors only, and derived sentences are set differences of
sentences already enjoying the property. -/
theorem claim_C9 (h w : ℤ) (t : AI) (hr : Steps (AI.init h w) t) :
    ∀ st ∈ t.knowledge, Disjoint st.cells t.safes ∧ Disjoint st.cells t.mines := by
  induction hr with
  | refl => intro st hst; exact absurd hst (List.not_mem_nil st)
  | mark_mine c hst ih =>
    rename_i t'
    intro st' hmem
    simp only [AI.mark_mine, List.mem_map] at hmem
    obtain ⟨s, hs, rfl⟩ := hmem
    refine ⟨(ih s hs).1.mono_left (Sentence.mark_mine_cells_subset s c), ?_⟩
    rw [show (t'.mark_mine c).mines = insert c t'.mines from rfl,
      Finset.disjoint_insert_right]
    exact ⟨Sentence.not_mem_mark_mine s c,
      (ih s hs).2.mono_left (Sentence.mark_mine_cells_subset s c)⟩
  | mark_safe c hst ih =>
    rename_i t'
    intro st' hmem
    simp only [AI.mark_safe, List.mem_map] at hmem
    obtain ⟨s, hs, rfl⟩ := hmem
    refine ⟨?_, (ih s hs).2.mono_left (Sentence.mark_safe_cells_subset s c)⟩
    rw [show (t'.mark_safe c).safes = insert c t'.safes from rfl,
      Finset.disjoint_insert_right]
    exact ⟨Sentence.not_mem_mark_safe s c,
      (ih s hs).1.mono_left (Sentence.mark_safe_cells_subset s c)⟩
  | add_core c n hst ih =>
    rename_i t'
    intro st' hmem
    obtain ⟨-, hs, hmi, -, -⟩ := add_knowledge_core_fields t' c n
    rw [hs, hmi]
    rcases add_knowledge_core_knowledge_mem hmem with ⟨s, hsmem, rfl⟩ | hcells
    · constructor
      · rw [Finset.disjoint_insert_right]
        exact ⟨Sentence.not_mem_mark_safe s c,
          (ih s hsmem).1.mono_left (Sentence.mark_safe_cells_subset s c)⟩
      · exact (ih s hsmem).2.mono_left (Sentence.mark_safe_cells_subset s c)
    · rw [hcells]
      constructor
      · exact Finset.sdiff_disjoint.mono_left Finset.sdiff_subset
      · exact Finset.sdiff_disjoint
  | pass hst ih =>
    rename_i t'
    intro st' hmem
    have hsafe : t'.updatePass.1.safes = t'.safes ∪ t'.dSafesOf := rfl
    have hmine : t'.updatePass.1.mines = t'.mines ∪ t'.dMinesOf := rfl
    have hkn : t'.updatePass.1.knowledge =
      t'.knowledgeMid ++ inferNew t'.knowledgeMid := rfl
    rw [hsafe, hmine]
    rw [hkn] at hmem
    have hmid : ∀ x ∈ t'.knowledgeMid,
        Disjoint x.cells (t'.safes ∪ t'.dSafesOf) ∧
        Disjoint x.cells (t'.mines ∪ t'.dMinesOf) := by
      intro x hx
      simp only [AI.knowledgeMid, List.mem_filter, List.mem_map] at hx
      obtain ⟨⟨s, hs, rfl⟩, -⟩ := hx
      simp only [Sentence.mark_safes, Sentence.mark_mines]
      constructor
      · rw [Finset.disjoint_union_right]
        exact ⟨(ih s hs).1.mono_left (Finset.sdiff_subset.trans Finset.sdiff_subset),
          Finset.sdiff_disjoint.mono_left Finset.sdiff_subset⟩
      · rw [Finset.disjoint_union_right]
        exact ⟨(ih s hs).2.mono_left (Finset.sdiff_subset.trans Finset.sdiff_subset),
          Finset.sdiff_disjoint⟩
    rcases List.mem_append.mp hmem with hmem' | hmem'
    · exact hmid st' hmem'
    · obtain ⟨-, -, s1, hs1, s2, hs2, -, -, rfl⟩ := mem_inferNew_elim hmem'
      exact ⟨(hmid s1 hs1).1.mono_left Finset.sdiff_subset,
        (hmid s1 hs1).2.mono_left Finset.sdiff_subset⟩

/-- Concrete instance of claim C9: the sentence created by revealing (0, 0)
with count 1 on a fresh 2×2 engine is disjoint from the resulting `safes`
and `mines` sets. -/
theorem claim_C9_witness :
    Disjoint
      (Sentence.mk {((0 : ℤ), (1 : ℤ)), ((1 : ℤ), (0 : ℤ)), ((1 : ℤ), (1 : ℤ))} 1).cells
      ((AI.init 2 2).add_knowledge_core (0, 0) 1).safes ∧
    Disjoint
      (Sentence.mk {((0 : ℤ), (1 : ℤ)), ((1 : ℤ), (0 : ℤ)), ((1 : ℤ), (1 : ℤ))} 1).cells
      ((AI.init 2 2).add_knowledge_core (0, 0) 1).mines :=
  claim_C9 2 2 _ (Steps.add_core (0, 0) 1 (Steps.refl _)) _ (by decide)

/-- The row-major grid enumeration underlying `randomChoices` has no
duplicates. -/
lemma gridEnum_nodup (h w : ℤ) :
    ((List.range h.toNat).flatMap (fun i : ℕ =>
      (List.range w.toNat).map (fun j : ℕ => ((i : ℤ), (j : ℤ))))).Nodup := by
  rw [List.nodup_flatMap]
  constructor
  · intro i _
    show ((List.range w.toNat).map (fun j : ℕ => ((i : ℤ), (j : ℤ)))).Nodup
    exact (List.nodup_range _).map
      (fun a b hab => Nat.cast_injective (congrArg Prod.snd hab))
  · refine List.Pairwise.imp ?_ (List.pairwise_lt_range _)
    intro a b hab
    show List.Disjoint ((List.range w.toNat).map (fun j : ℕ => ((a : ℤ), (j : ℤ))))
      ((List.range w.toNat).map (fun j : ℕ => ((b : ℤ), (j : ℤ))))
    intro x hx hx'
    rcases List.mem_map.mp hx with ⟨j, -, rfl⟩
    rcases List.mem_map.mp hx' with ⟨j', -, hj⟩
    have hfst := congrArg Prod.fst hj
    simp only at hfst
    exact absurd (Nat.cast_injective hfst.symm) (Nat.ne_of_lt hab)

/-- Membership in the row-major grid enumeration is exactly being in
bounds. -/
lemma gridEnum_mem (h w : ℤ) (c : Cell) :
    c ∈ ((List.range h.toNat).flatMap (fun i : ℕ =>
      (List.range w.toNat).map (fun j : ℕ => ((i : ℤ), (j : ℤ))))) ↔
    (0 ≤ c.1 ∧ c.1 < h ∧ 0 ≤ c.2 ∧ c.2 < w) := by
  constructor
  · intro hc
    rcases List.mem_flatMap.mp hc with ⟨i, hi, hc2⟩
    have hc3 : c ∈ (List.range w.toNat).map (fun j : ℕ => ((i : ℤ), (j : ℤ))) := hc2
    rcases List.mem_map.mp hc3 with ⟨j, hj, rfl⟩
    exact ⟨Int.natCast_nonneg i, Int.lt_toNat.mp (List.mem_range.mp hi),
      Int.natCast_nonneg j, Int.lt_toNat.mp (List.mem_range.mp hj)⟩
  · rintro ⟨h1, h2, h3, h4⟩
    have hmem : c ∈ (List.range w.toNat).map
        (fun j : ℕ => ((c.1.toNat : ℤ), (j : ℤ))) := by
      refine List.mem_map.mpr ⟨c.2.toNat, List.mem_range.mpr ?_, ?_⟩
      · exact (Int.toNat_lt_toNat (lt_of_le_of_lt h3 h4)).mpr h4
      · rw [Int.toNat_of_nonneg h1, Int.toNat_of_nonneg h3]
    exact List.mem_flatMap.mpr ⟨c.1.toNat,
      List.mem_range.mpr ((Int.toNat_lt_toNat (lt_of_le_of_lt h1 h2)).mpr h2), hmem⟩

/-- Claim C8: `make_random_move` returns `None` exactly when no grid cell
avoids both `moves_made` and `mines`; otherwise it returns the entry of the
duplicate-free candidate list selected by the external uniform draw (so the
returned cell is uniform over the candidate set). -/
theorem claim_C8 (ai : AI) (r : ℕ) :
    (ai.make_random_move r = none ↔ ai.randomChoices = []) ∧
    ai.randomChoices.Nodup ∧
    (∀ c : Cell, c ∈ ai.randomChoices ↔
      (0 ≤ c.1 ∧ c.1 < ai.height ∧ 0 ≤ c.2 ∧ c.2 < ai.width ∧
        c ∉ ai.moves_made ∧ c ∉ ai.mines)) ∧
    (∀ hr : r < ai.randomChoices.length,
      ai.make_random_move r = some (ai.randomChoices.get ⟨r, hr⟩)) := by
  refine ⟨?_, ?_, ?_, ?_⟩
  · unfold AI.make_random_move
    split_ifs with h0
    · simp [List.length_eq_zero.mp h0]
    · simp only [reduceCtorEq, false_iff]
      intro hempty
      rw [hempty] at h0
      exact h0 rfl
  · exact (gridEnum_nodup ai.height ai.width).filter _
  · intro c
    unfold AI.randomChoices
    rw [List.mem_filter, gridEnum_mem]
    constructor
    · rintro ⟨⟨h1, h2, h3, h4⟩, hdec⟩
      have := of_decide_eq_true hdec
      exact ⟨h1, h2, h3, h4, this.1, this.2⟩
    · rintro ⟨h1, h2, h3, h4, h5, h6⟩
      exact ⟨⟨h1, h2, h3, h4⟩, decide_eq_true ⟨h5, h6⟩⟩
  · intro hr
    unfold AI.make_random_move
    split_ifs with h0
    · omega
    · simp [Nat.mod_eq_of_lt hr]

/-- A 3×3 engine in the spec's scenario 4: eight cells already played, the
ninth a known mine. -/
def aiExhausted : AI :=
  ⟨3, 3,
   {((0 : ℤ), (0 : ℤ)), ((0 : ℤ), (1 : ℤ)), ((0 : ℤ), (2 : ℤ)),
    ((1 : ℤ), (0 : ℤ)), ((1 : ℤ), (1 : ℤ)), ((1 : ℤ), (2 : ℤ)),
    ((2 : ℤ), (0 : ℤ)), ((2 : ℤ), (1 : ℤ))},
   {((2 : ℤ), (2 : ℤ))}, ∅, []⟩

/-- Concrete instance of claim C8, the spec's scenario 4: with eight of nine
cells played and the ninth a known mine, `make_random_move` returns `None`;
and on a fresh 1×1 grid it returns the single available cell. -/
theorem claim_C8_witness :
    AI.make_random_move aiExhausted 0 = none ∧
    AI.make_random_move (AI.init 1 1) 0 = some ((0 : ℤ), (0 : ℤ)) := by
  constructor
  · exact (claim_C8 aiExhausted 0).1.mpr (by decide)
  · have h := (claim_C8 (AI.init 1 1) 0).2.2.2 (by decide)
    rw [h]
    decide

/-- State of `Minesweeper.__init__` (src/minesweeper.py lines 10-31): the
mine set and the boolean board.  The board is a function mirroring the 2-D
list `self.board`. -/
structure MSState where
  mines : Finset (ℕ × ℕ)
  board : ℕ → ℕ → Bool

/-- The state before the placement loop: no mines, all-False board. -/
def msInit : MSState := ⟨∅, fun _ _ => false⟩

/-- One iteration of the `while len(self.mines) != mines` placement loop
(lines 26-31), fed one `randrange` draw: once the target count is reached the
loop has exited and further draws are ignored; otherwise an unmined square is
added to `self.mines` and `board[i][j]` is set, and a mined square is
retried. -/
def msStep (target : ℕ) (st : MSState) (draw : ℕ × ℕ) : MSState :=
  if st.mines.card = target then st
  else if st.board draw.1 draw.2 then st
  else ⟨insert draw st.mines,
        fun i j => if (i, j) = draw then true else st.board i j⟩

/-- The placement loop run on a finite prefix of the `randrange` draw
stream. -/
def msRun (target : ℕ) (l : List (ℕ × ℕ)) : MSState :=
  l.foldl (msStep target) msInit

/-- `msStep` preserves the board/mine-set agreement. -/
lemma msStep_inv {target : ℕ} {st : MSState} {draw : ℕ × ℕ}
    (h : ∀ i j, st.board i j = true ↔ (i, j) ∈ st.mines) :
    ∀ i j, (msStep target st draw).board i j = true ↔
      (i, j) ∈ (msStep target st draw).mines := by
  unfold msStep
  split_ifs with h1 h2
  · exact h
  · exact h
  · intro i j
    by_cases hd : (i, j) = draw
    · simp only [hd, if_pos rfl]
      simp [Finset.mem_insert]
    · simp only [if_neg hd, Finset.mem_insert, hd, false_or]
      exact h i j

/-- The board/mine-set agreement holds after any run. -/
lemma msRun_board_inv (target : ℕ) :
    ∀ (l : List (ℕ × ℕ)) (st : MSState),
      (∀ i j, st.board i j = true ↔ (i, j) ∈ st.mines) →
      ∀ i j, (l.foldl (msStep target) st).board i j = true ↔
        (i, j) ∈ (l.foldl (msStep target) st).mines
  | [], _, h => h
  | d :: t, st, h => msRun_board_inv target t (msStep target st d) (msStep_inv h)

/-- Mines only come from the draws (plus whatever was already there). -/
lemma msRun_mines_subset (target : ℕ) :
    ∀ (l : List (ℕ × ℕ)) (st : MSState),
      (l.foldl (msStep target) st).mines ⊆ st.mines ∪ l.toFinset
  | [], _ => by simp
  | d :: t, st => by
    refine (msRun_mines_subset target t (msStep target st d)).trans ?_
    intro x hx
    rcases Finset.mem_union.mp hx with hx | hx
    · unfold msStep at hx
      split_ifs at hx
      · exact Finset.mem_union_left _ hx
      · exact Finset.mem_union_left _ hx
      · rcases Finset.mem_insert.mp hx with rfl | hx
        · simp
        · exact Finset.mem_union_left _ hx
    · simp [Finset.mem_union, hx]

/-- Feeding pairwise-distinct fresh draws while below the target adds exactly
those draws. -/
lemma msRun_fresh (target : ℕ) :
    ∀ (l : List (ℕ × ℕ)) (st : MSState), l.Nodup →
      (∀ d ∈ l, d ∉ st.mines) →
      (∀ i j, st.board i j = true ↔ (i, j) ∈ st.mines) →
      st.mines.card + l.length ≤ target →
      (l.foldl (msStep target) st).mines = st.mines ∪ l.toFinset
  | [], st, _, _, _, _ => by simp
  | d :: t, st, hnodup, hfresh, hinv, hcard => by
    have hlt : st.mines.card < target := by
      simp only [List.length_cons] at hcard
      omega
    have hboard : st.board d.1 d.2 = false := by
      rw [Bool.eq_false_iff]
      intro htrue
      exact hfresh d (List.mem_cons_self d t) ((hinv d.1 d.2).mp htrue)
    have hstep : msStep target st d =
        ⟨insert d st.mines,
         fun i j => if (i, j) = d then true else st.board i j⟩ := by
      unfold msStep
      rw [if_neg (Nat.ne_of_lt hlt), hboard]
      simp
    have ht := msRun_fresh target t (msStep target st d)
      (List.Nodup.of_cons hnodup)
      (by
        intro d' hd'
        rw [hstep]
        simp only [Finset.mem_insert, not_or]
        exact ⟨fun hEq => (List.nodup_cons.mp hnodup).1 (hEq ▸ hd'),
          hfresh d' (List.mem_cons_of_mem d hd')⟩)
      (msStep_inv hinv)
      (by
        rw [hstep]
        simp only [List.length_cons] at hcard
        rw [Finset.card_insert_of_not_mem (hfresh d (List.mem_cons_self d t))]
        omega)
    show (t.foldl (msStep target) (msStep target st d)).mines = _
    rw [ht, hstep]
    simp only [List.toFinset_cons]
    rw [Finset.insert_union, Finset.union_insert]

/-- Claim C10: the constructor's placement loop can reach the requested mine
count precisely when `mines ≤ height * width` (with more mines requested than
squares it can never exit, whatever the random draws), and at every point the
mine set consists of in-bounds squares and agrees exactly with the True
entries of the board.  `randrange` draws are modelled as an explicit list of
in-range draws fed to the loop. -/
theorem claim_C10 (hh ww target : ℕ) :
    ((∃ l : List (ℕ × ℕ), (∀ d ∈ l, d.1 < hh ∧ d.2 < ww) ∧
        (msRun target l).mines.card = target) ↔ target ≤ hh * ww) ∧
    (∀ l : List (ℕ × ℕ), (∀ d ∈ l, d.1 < hh ∧ d.2 < ww) →
      ∀ p ∈ (msRun target l).mines, p.1 < hh ∧ p.2 < ww) ∧
    (∀ (l : List (ℕ × ℕ)) (i j : ℕ),
      (msRun target l).board i j = true ↔ (i, j) ∈ (msRun target l).mines) := by
  have hbounds : ∀ l : List (ℕ × ℕ), (∀ d ∈ l, d.1 < hh ∧ d.2 < ww) →
      ∀ p ∈ (msRun target l).mines, p.1 < hh ∧ p.2 < ww := by
    intro l hl p hp
    have hx := msRun_mines_subset target l msInit hp
    rcases Finset.mem_union.mp hx with h | h
    · simp [msInit] at h
    · exact hl p (List.mem_toFinset.mp h)
  refine ⟨⟨?_, ?_⟩, hbounds, ?_⟩
  · rintro ⟨l, hl, hcard⟩
    have hsub : (msRun target l).mines ⊆
        Finset.range hh ×ˢ Finset.range ww := by
      intro p hp
      rcases hbounds l hl p hp with ⟨h1, h2⟩
      exact Finset.mem_product.mpr
        ⟨Finset.mem_range.mpr h1, Finset.mem_range.mpr h2⟩
    have hle := Finset.card_le_card hsub
    rw [hcard, Finset.card_product, Finset.card_range, Finset.card_range] at hle
    exact hle
  · intro htarget
    refine ⟨(List.range hh ×ˢ List.range ww).take target, ?_, ?_⟩
    · intro d hd
      have hx := List.take_subset _ _ hd
      have hy : (d.1, d.2) ∈ List.range hh ×ˢ List.range ww := hx
      have := List.mem_product.mp hy
      exact ⟨List.mem_range.mp this.1, List.mem_range.mp this.2⟩
    · have hnodup : ((List.range hh ×ˢ List.range ww).take target).Nodup :=
        ((List.nodup_range hh).product (List.nodup_range ww)).sublist
          (List.take_sublist _ _)
      have hlen : ((List.range hh ×ˢ List.range ww).take target).length = target := by
        rw [List.length_take, List.length_product,
          List.length_range, List.length_range]
        exact Nat.min_eq_left htarget
      have hrun := msRun_fresh target ((List.range hh ×ˢ List.range ww).take target)
        msInit hnodup (by simp [msInit]) (by simp [msInit])
        (by simp [msInit, hlen])
      show ((((List.range hh ×ˢ List.range ww).take target).foldl
        (msStep target) msInit).mines).card = target
      rw [hrun]
      simp only [msInit, Finset.empty_union]
      rw [List.toFinset_card_of_nodup hnodup]
      exact hlen
  · intro l i j
    exact msRun_board_inv target l msInit (by simp [msInit]) i j

/-- Concrete instance of claim C10: on a 2×2 board a request for 2 mines can
be completed by suitable draws. -/
theorem claim_C10_witness :
    ∃ l : List (ℕ × ℕ), (∀ d ∈ l, d.1 < 2 ∧ d.2 < 2) ∧
      (msRun 2 l).mines.card = 2 :=
  (claim_C10 2 2 2).1.mpr (by norm_num)

/-- Two sentences with different cell sets are different. -/
lemma sentence_ne_of_cells_ne {s t : Sentence} (h : s.cells ≠ t.cells) :
    s ≠ t :=
  fun hEq => h (congrArg Sentence.cells hEq)

/-- Folding a union of empty sets changes nothing. -/
lemma foldl_union_of_empty {f : Sentence → Finset Cell} :
    ∀ (l : List Sentence) (acc : Finset Cell), (∀ st ∈ l, f st = ∅) →
      l.foldl (fun a s => a ∪ f s) acc = acc
  | [], _, _ => rfl
  | st :: t, acc, h => by
    have hst := h st (List.mem_cons_self st t)
    have ht := foldl_union_of_empty t (acc ∪ f st) fun x hx =>
      h x (List.mem_cons_of_mem st hx)
    rw [List.foldl_cons, ht, hst, Finset.union_empty]

/-- Shape of the sentences in the non-terminating knowledge base below: the
full pair with count ≡ 1, the first singleton with count ≡ 2, or the second
singleton with count ≡ 3 (mod 4).  No sentence of this shape ever triggers a
safe or mine marking, yet resolution keeps producing new counts forever. -/
abbrev badForm (st : Sentence) : Prop :=
  (st.cells = {((0 : ℤ), (0 : ℤ)), ((0 : ℤ), (1 : ℤ))} ∧ st.count % 4 = 1) ∨
  (st.cells = {((0 : ℤ), (0 : ℤ))} ∧ st.count % 4 = 2) ∨
  (st.cells = {((0 : ℤ), (1 : ℤ))} ∧ st.count % 4 = 3)

/-- The invariant driving the non-termination of `update_knowledge`: every
sentence has one of the three shapes, both seed pair-sentences (counts 5 and
9) are present, and at least one first-singleton sentence is present. -/
def badInv (ai : AI) : Prop :=
  (∀ st ∈ ai.knowledge, badForm st) ∧
  (⟨{((0 : ℤ), (0 : ℤ)), ((0 : ℤ), (1 : ℤ))}, 5⟩ : Sentence) ∈ ai.knowledge ∧
  (⟨{((0 : ℤ), (0 : ℤ)), ((0 : ℤ), (1 : ℤ))}, 9⟩ : Sentence) ∈ ai.knowledge ∧
  ∃ x : ℤ, (⟨{((0 : ℤ), (0 : ℤ))}, x⟩ : Sentence) ∈ ai.knowledge

/-- An 8×8 engine state with an unsatisfiable knowledge base (the same cell
pair cannot carry both count 5 and count 9) on which `update_knowledge`
never reaches a fixed point. -/
def badAI : AI :=
  ⟨8, 8, ∅, ∅, ∅,
   [⟨{((0 : ℤ), (0 : ℤ)), ((0 : ℤ), (1 : ℤ))}, 5⟩,
    ⟨{((0 : ℤ), (0 : ℤ)), ((0 : ℤ), (1 : ℤ))}, 9⟩,
    ⟨{((0 : ℤ), (0 : ℤ))}, 2⟩]⟩

/-- Under `badInv` no sentence yields known safes. -/
lemma badInv_known_safes {st : Sentence} (h : badForm st) :
    st.known_safes = ∅ := by
  unfold Sentence.known_safes
  rw [if_neg]
  rcases h with ⟨-, hc⟩ | ⟨-, hc⟩ | ⟨-, hc⟩ <;> omega

/-- Under `badInv` no sentence yields known mines. -/
lemma badInv_known_mines {st : Sentence} (h : badForm st) :
    st.known_mines = ∅ := by
  unfold Sentence.known_mines
  rw [if_neg]
  rcases h with ⟨hcells, hc⟩ | ⟨hcells, hc⟩ | ⟨hcells, hc⟩ <;> rw [hcells] <;>
    rintro ⟨hcard, hpos⟩
  · rw [show (({((0 : ℤ), (0 : ℤ)), ((0 : ℤ), (1 : ℤ))} : Finset Cell).card) = 2
      from by decide] at hcard
    omega
  · rw [show (({((0 : ℤ), (0 : ℤ))} : Finset Cell).card) = 1 from by decide] at hcard
    omega
  · rw [show (({((0 : ℤ), (1 : ℤ))} : Finset Cell).card) = 1 from by decide] at hcard
    omega

/-- Removing an empty cell set from a sentence changes nothing. -/
lemma Sentence.mark_safes_empty (s : Sentence) : s.mark_safes ∅ = s := by
  unfold Sentence.mark_safes
  rw [Finset.sdiff_empty]

/-- Removing an empty mine set from a sentence changes nothing. -/
lemma Sentence.mark_mines_empty (s : Sentence) : s.mark_mines ∅ = s := by
  unfold Sentence.mark_mines
  rw [Finset.sdiff_empty, Finset.inter_empty, Finset.card_empty,
    Nat.cast_zero, sub_zero]

/-- Under the invariant the pass marks no safes. -/
lemma badInv_dSafes {ai : AI} (h : ∀ st ∈ ai.knowledge, badForm st) :
    ai.dSafesOf = ∅ := by
  unfold AI.dSafesOf AI.newSafesOf
  rw [foldl_union_of_empty ai.knowledge ∅ (fun st hst => badInv_known_safes (h st hst)),
    Finset.empty_sdiff]

/-- Under the invariant the pass marks no mines. -/
lemma badInv_dMines {ai : AI} (h : ∀ st ∈ ai.knowledge, badForm st) :
    ai.dMinesOf = ∅ := by
  unfold AI.dMinesOf AI.newMinesOf
  rw [foldl_union_of_empty ai.knowledge ∅ (fun st hst => badInv_known_mines (h st hst)),
    Finset.empty_sdiff]

/-- Under the invariant the marking-and-filtering phase leaves the knowledge
base untouched. -/
lemma badInv_knowledgeMid {ai : AI} (h : ∀ st ∈ ai.knowledge, badForm st) :
    ai.knowledgeMid = ai.knowledge := by
  unfold AI.knowledgeMid
  rw [badInv_dSafes h, badInv_dMines h]
  have hmap : ai.knowledge.map
      (fun s : Sentence => (s.mark_safes ∅).mark_mines ∅) = ai.knowledge := by
    simp [Sentence.mark_safes_empty, Sentence.mark_mines_empty]
  rw [hmap]
  rw [List.filter_eq_self]
  intro st hst
  rcases h st hst with ⟨hcells, -⟩ | ⟨hcells, -⟩ | ⟨hcells, -⟩ <;>
    · rw [decide_eq_true_eq, hcells]
      decide

/-- Every sentence the resolution step derives from shape-respecting
sentences again respects the shape. -/
lemma badForm_infer {kn : List Sentence} (h : ∀ st ∈ kn, badForm st) :
    ∀ st ∈ inferNew kn, badForm st := by
  intro st hst
  obtain ⟨-, hne, s1, hs1, s2, hs2, -, hsub, rfl⟩ := mem_inferNew_elim hst
  rcases h s1 hs1 with ⟨hc1, hm1⟩ | ⟨hc1, hm1⟩ | ⟨hc1, hm1⟩ <;>
    rcases h s2 hs2 with ⟨hc2, hm2⟩ | ⟨hc2, hm2⟩ | ⟨hc2, hm2⟩
  · exact absurd (show s1.cells \ s2.cells = ∅ by rw [hc1, hc2]; decide) hne
  · refine Or.inr (Or.inr ⟨?_, ?_⟩)
    · show s1.cells \ s2.cells = _
      rw [hc1, hc2]; decide
    · show (s1.count - s2.count) % 4 = 3
      omega
  · refine Or.inr (Or.inl ⟨?_, ?_⟩)
    · show s1.cells \ s2.cells = _
      rw [hc1, hc2]; decide
    · show (s1.count - s2.count) % 4 = 2
      omega
  · rw [hc1, hc2] at hsub
    exact absurd hsub (by decide)
  · exact absurd (show s1.cells \ s2.cells = ∅ by rw [hc1, hc2]; decide) hne
  · rw [hc1, hc2] at hsub
    exact absurd hsub (by decide)
  · rw [hc1, hc2] at hsub
    exact absurd hsub (by decide)
  · rw [hc1, hc2] at hsub
    exact absurd hsub (by decide)
  · exact absurd (show s1.cells \ s2.cells = ∅ by rw [hc1, hc2]; decide) hne

/-- Changing only the (equal) cell sets of a sentence literal. -/
lemma sentence_cells_congr {X Y : Finset Cell} {c : ℤ} (h : X = Y) :
    (⟨X, c⟩ : Sentence) = ⟨Y, c⟩ := by rw [h]

/-- The counts carried by the sentences over a fixed cell set `S`, as a
finite set. -/
lemma mem_countsOf {kn : List Sentence} {S : Finset Cell} {x : ℤ} :
    x ∈ ((kn.filter (fun st => st.cells = S)).map Sentence.count).toFinset ↔
      (⟨S, x⟩ : Sentence) ∈ kn := by
  simp only [List.mem_toFinset, List.mem_map, List.mem_filter, decide_eq_true_eq]
  constructor
  · rintro ⟨st, ⟨hst, hcells⟩, hcount⟩
    obtain ⟨cells, count⟩ := st
    cases hcells
    cases hcount
    exact hst
  · intro hmem
    exact ⟨⟨S, x⟩, ⟨hmem, rfl⟩, rfl⟩

/-- Under the invariant the resolution step always collects a new sentence:
if it collected nothing, the singleton counts would be closed under both
`x ↦ 5 − x` and `x ↦ 9 − x` across the two singletons, forcing
`min ≤ min − 4` on the finitely many counts present. -/
lemma badInv_infer_ne {ai : AI} (h : badInv ai) : inferNew ai.knowledge ≠ [] := by
  obtain ⟨hform, h5, h9, x0, hx0⟩ := h
  intro hempty
  have hproduce : ∀ s1 s2 : Sentence, s1 ∈ ai.knowledge → s2 ∈ ai.knowledge →
      s1 ≠ s2 → s2.cells ⊆ s1.cells → s1.cells \ s2.cells ≠ ∅ →
      (⟨s1.cells \ s2.cells, s1.count - s2.count⟩ : Sentence) ∈ ai.knowledge := by
    intro s1 s2 hs1 hs2 hne hsub hdiff
    rcases inferOuter_produces hs2 hne hsub hdiff ai.knowledge [] hs1 with hmem | hmem
    · exact hmem
    · have hmem2 : (⟨s1.cells \ s2.cells, s1.count - s2.count⟩ : Sentence) ∈
        inferNew ai.knowledge := hmem
      rw [hempty] at hmem2
      exact absurd hmem2 (List.not_mem_nil _)
  have hABne : ({((0 : ℤ), (0 : ℤ)), ((0 : ℤ), (1 : ℤ))} : Finset Cell) ≠
      {((0 : ℤ), (0 : ℤ))} := by decide
  have hABne' : ({((0 : ℤ), (0 : ℤ)), ((0 : ℤ), (1 : ℤ))} : Finset Cell) ≠
      {((0 : ℤ), (1 : ℤ))} := by decide
  have hsubA : ({((0 : ℤ), (0 : ℤ))} : Finset Cell) ⊆
      {((0 : ℤ), (0 : ℤ)), ((0 : ℤ), (1 : ℤ))} := by decide
  have hsubB : ({((0 : ℤ), (1 : ℤ))} : Finset Cell) ⊆
      {((0 : ℤ), (0 : ℤ)), ((0 : ℤ), (1 : ℤ))} := by decide
  have hdiffA : ({((0 : ℤ), (0 : ℤ)), ((0 : ℤ), (1 : ℤ))} : Finset Cell) \
      {((0 : ℤ), (0 : ℤ))} ≠ ∅ := by decide
  have hdiffB : ({((0 : ℤ), (0 : ℤ)), ((0 : ℤ), (1 : ℤ))} : Finset Cell) \
      {((0 : ℤ), (1 : ℤ))} ≠ ∅ := by decide
  have hsdA : ({((0 : ℤ), (0 : ℤ)), ((0 : ℤ), (1 : ℤ))} : Finset Cell) \
      {((0 : ℤ), (0 : ℤ))} = {((0 : ℤ), (1 : ℤ))} := by decide
  have hsdB : ({((0 : ℤ), (0 : ℤ)), ((0 : ℤ), (1 : ℤ))} : Finset Cell) \
      {((0 : ℤ), (1 : ℤ))} = {((0 : ℤ), (0 : ℤ))} := by decide
  have hstepA : ∀ x : ℤ, (⟨{((0 : ℤ), (0 : ℤ))}, x⟩ : Sentence) ∈ ai.knowledge →
      (⟨{((0 : ℤ), (1 : ℤ))}, 5 - x⟩ : Sentence) ∈ ai.knowledge ∧
      (⟨{((0 : ℤ), (1 : ℤ))}, 9 - x⟩ : Sentence) ∈ ai.knowledge := by
    intro x hx
    constructor
    · have hp := hproduce _ _ h5 hx (sentence_ne_of_cells_ne hABne) hsubA hdiffA
      have hp2 : (⟨({((0 : ℤ), (0 : ℤ)), ((0 : ℤ), (1 : ℤ))} : Finset Cell) \
          {((0 : ℤ), (0 : ℤ))}, 5 - x⟩ : Sentence) ∈ ai.knowledge := hp
      rwa [sentence_cells_congr hsdA] at hp2
    · have hp := hproduce _ _ h9 hx (sentence_ne_of_cells_ne hABne) hsubA hdiffA
      have hp2 : (⟨({((0 : ℤ), (0 : ℤ)), ((0 : ℤ), (1 : ℤ))} : Finset Cell) \
          {((0 : ℤ), (0 : ℤ))}, 9 - x⟩ : Sentence) ∈ ai.knowledge := hp
      rwa [sentence_cells_congr hsdA] at hp2
  have hstepB : ∀ y : ℤ, (⟨{((0 : ℤ), (1 : ℤ))}, y⟩ : Sentence) ∈ ai.knowledge →
      (⟨{((0 : ℤ), (0 : ℤ))}, 5 - y⟩ : Sentence) ∈ ai.knowledge ∧
      (⟨{((0 : ℤ), (0 : ℤ))}, 9 - y⟩ : Sentence) ∈ ai.knowledge := by
    intro y hy
    constructor
    · have hp := hproduce _ _ h5 hy (sentence_ne_of_cells_ne hABne') hsubB hdiffB
      have hp2 : (⟨({((0 : ℤ), (0 : ℤ)), ((0 : ℤ), (1 : ℤ))} : Finset Cell) \
          {((0 : ℤ), (1 : ℤ))}, 5 - y⟩ : Sentence) ∈ ai.knowledge := hp
      rwa [sentence_cells_congr hsdB] at hp2
    · have hp := hproduce _ _ h9 hy (sentence_ne_of_cells_ne hABne') hsubB hdiffB
      have hp2 : (⟨({((0 : ℤ), (0 : ℤ)), ((0 : ℤ), (1 : ℤ))} : Finset Cell) \
          {((0 : ℤ), (1 : ℤ))}, 9 - y⟩ : Sentence) ∈ ai.knowledge := hp
      rwa [sentence_cells_congr hsdB] at hp2
  have hACne : (((ai.knowledge.filter
      (fun st => st.cells = {((0 : ℤ), (0 : ℤ))})).map Sentence.count).toFinset).Nonempty :=
    ⟨x0, mem_countsOf.mpr hx0⟩
  have hBCne : (((ai.knowledge.filter
      (fun st => st.cells = {((0 : ℤ), (1 : ℤ))})).map Sentence.count).toFinset).Nonempty :=
    ⟨5 - x0, mem_countsOf.mpr (hstepA x0 hx0).1⟩
  have hmA := mem_countsOf.mp (Finset.min'_mem _ hACne)
  have hMB := mem_countsOf.mp (Finset.max'_mem _ hBCne)
  have h2 := Finset.le_max' _ _ (mem_countsOf.mpr (hstepA _ hmA).2)
  have h4 := Finset.min'_le _ _ (mem_countsOf.mpr (hstepB _ hMB).1)
  omega

/-- One pass on an invariant state reports a change and re-establishes the
invariant: the loop can never exit. -/
lemma badInv_pass {ai : AI} (h : badInv ai) :
    (ai.updatePass).2 = true ∧ badInv (ai.updatePass).1 := by
  obtain ⟨hform, h5, h9, hx⟩ := h
  have hmid : ai.knowledgeMid = ai.knowledge := badInv_knowledgeMid hform
  have hne : inferNew ai.knowledgeMid ≠ [] := by
    rw [hmid]
    exact badInv_infer_ne ⟨hform, h5, h9, hx⟩
  have hk : (ai.updatePass).1.knowledge =
      ai.knowledge ++ inferNew ai.knowledge := by
    show ai.knowledgeMid ++ inferNew ai.knowledgeMid = _
    rw [hmid]
  constructor
  · show (decide (ai.dSafesOf ≠ ∅) || decide (ai.dMinesOf ≠ ∅) ||
      decide (inferNew ai.knowledgeMid ≠ [])) = true
    rw [decide_eq_true hne, Bool.or_true]
  · refine ⟨?_, ?_, ?_, ?_⟩
    · intro st hst
      rw [hk] at hst
      rcases List.mem_append.mp hst with hst | hst
      · exact hform st hst
      · exact badForm_infer hform st hst
    · rw [hk]
      exact List.mem_append_left _ h5
    · rw [hk]
      exact List.mem_append_left _ h9
    · obtain ⟨x, hxmem⟩ := hx
      exact ⟨x, by rw [hk]; exact List.mem_append_left _ hxmem⟩

/-- Counterexample to claim C3: `update_knowledge` does NOT terminate for
every finite grid and finite initial knowledge base.  On the 8×8 state
`badAI` — whose (unsatisfiable) knowledge base asserts both count 5 and
count 9 for the same cell pair — every pass appends a fresh sentence, so no
amount of fuel makes the loop reach a fixed point. -/
theorem claim_C3_counterexample :
    ¬ ∃ (fuel : ℕ) (s : AI), AI.updateLoop fuel badAI = some s := by
  have hbad : badInv badAI := ⟨by decide, by decide, by decide, 2, by decide⟩
  have hgen : ∀ (n : ℕ) (ai : AI), badInv ai → AI.updateLoop n ai = none := by
    intro n
    induction n with
    | zero => intro ai _; rfl
    | succ n ih =>
      intro ai hInv
      obtain ⟨hch, hInv'⟩ := badInv_pass hInv
      show (if (ai.updatePass).2 then AI.updateLoop n (ai.updatePass).1
        else some (ai.updatePass).1) = none
      rw [hch]
      simp only [if_true]
      exact ih (ai.updatePass).1 hInv'
  rintro ⟨fuel, s, hs⟩
  rw [hgen fuel badAI hbad] at hs
  exact Option.noConfusion hs

/-- A mine assignment `M` satisfies a knowledge base when every sentence's
count is exactly the number of its cells that lie in `M`.  Knowledge bases
produced from truthful observations have this property. -/
def SatisfiedBy (kn : List Sentence) (M : Finset Cell) : Prop :=
  ∀ st ∈ kn, st.count = ((st.cells ∩ M).card : ℤ)

/-- All cells mentioned by a knowledge base. -/
def cellsOf (kn : List Sentence) : Finset Cell :=
  kn.foldr (fun st acc => st.cells ∪ acc) ∅

/-- Membership in `cellsOf`. -/
lemma mem_cellsOf : ∀ (kn : List Sentence) (c : Cell),
    c ∈ cellsOf kn ↔ ∃ st ∈ kn, c ∈ st.cells
  | [], c => by simp [cellsOf]
  | st :: t, c => by
    have ht := mem_cellsOf t c
    show c ∈ st.cells ∪ cellsOf t ↔ _
    rw [Finset.mem_union, ht]
    constructor
    · rintro (h | ⟨u, hu, hc⟩)
      · exact ⟨st, List.mem_cons_self st t, h⟩
      · exact ⟨u, List.mem_cons_of_mem st hu, hc⟩
    · rintro ⟨u, hu, hc⟩
      rcases List.mem_cons.mp hu with rfl | hu
      · exact Or.inl hc
      · exact Or.inr ⟨u, hu, hc⟩

/-- Membership in a fold of unions. -/
lemma mem_foldl_union {f : Sentence → Finset Cell} :
    ∀ (l : List Sentence) (acc : Finset Cell) (c : Cell),
      c ∈ l.foldl (fun a s => a ∪ f s) acc ↔ c ∈ acc ∨ ∃ st ∈ l, c ∈ f st
  | [], acc, c => by simp
  | st :: t, acc, c => by
    rw [List.foldl_cons, mem_foldl_union t (acc ∪ f st) c, Finset.mem_union]
    constructor
    · rintro ((h | h) | ⟨u, hu, hc⟩)
      · exact Or.inl h
      · exact Or.inr ⟨st, List.mem_cons_self st t, h⟩
      · exact Or.inr ⟨u, List.mem_cons_of_mem st hu, hc⟩
    · rintro (h | ⟨u, hu, hc⟩)
      · exact Or.inl (Or.inl h)
      · rcases List.mem_cons.mp hu with rfl | hu
        · exact Or.inl (Or.inr hc)
        · exact Or.inr ⟨u, hu, hc⟩

/-- If `M` satisfies a sentence, the cells extracted by `known_safes` avoid
`M`. -/
lemma known_safes_sound {st : Sentence} {M : Finset Cell}
    (h : st.count = ((st.cells ∩ M).card : ℤ)) :
    ∀ c ∈ st.known_safes, c ∉ M := by
  intro c hc hcM
  unfold Sentence.known_safes at hc
  split_ifs at hc with h0
  · rw [h0] at h
    have hcard : (st.cells ∩ M).card = 0 := by omega
    have hempty := Finset.card_eq_zero.mp hcard
    have : c ∈ st.cells ∩ M := Finset.mem_inter.mpr ⟨hc, hcM⟩
    rw [hempty] at this
    exact absurd this (Finset.not_mem_empty c)
  · exact absurd hc (Finset.not_mem_empty c)

/-- If `M` satisfies a sentence, the cells extracted by `known_mines` lie in
`M`. -/
lemma known_mines_sound {st : Sentence} {M : Finset Cell}
    (h : st.count = ((st.cells ∩ M).card : ℤ)) :
    ∀ c ∈ st.known_mines, c ∈ M := by
  intro c hc
  unfold Sentence.known_mines at hc
  split_ifs at hc with h0
  · have hcard : (st.cells ∩ M).card = st.cells.card := by omega
    have hsub : st.cells ⊆ st.cells ∩ M :=
      (Finset.eq_of_subset_of_card_le Finset.inter_subset_left
        (le_of_eq hcard.symm)).symm ▸ subset_rfl
    exact Finset.mem_inter.mp (hsub hc) |>.2
  · exact absurd hc (Finset.not_mem_empty c)

/-- If `M` satisfies the knowledge base, every cell the pass marks safe
avoids `M`. -/
lemma dSafes_sound {ai : AI} {M : Finset Cell}
    (hsat : SatisfiedBy ai.knowledge M) : ∀ c ∈ ai.dSafesOf, c ∉ M := by
  intro c hc
  have hc2 := Finset.mem_sdiff.mp hc |>.1
  rcases (mem_foldl_union ai.knowledge ∅ c).mp hc2 with h | ⟨st, hst, h⟩
  · exact absurd h (Finset.not_mem_empty c)
  · exact known_safes_sound (hsat st hst) c h

/-- If `M` satisfies the knowledge base, every cell the pass marks as a mine
lies in `M`. -/
lemma dMines_sound {ai : AI} {M : Finset Cell}
    (hsat : SatisfiedBy ai.knowledge M) : ∀ c ∈ ai.dMinesOf, c ∈ M := by
  intro c hc
  have hc2 := Finset.mem_sdiff.mp hc |>.1
  rcases (mem_foldl_union ai.knowledge ∅ c).mp hc2 with h | ⟨st, hst, h⟩
  · exact absurd h (Finset.not_mem_empty c)
  · exact known_mines_sound (hsat st hst) c h

/-- Marking truly-safe cells and truly-mined cells preserves the truth of a
sentence's count. -/
lemma mark_count_sound {st : Sentence} {M Ds Dm : Finset Cell}
    (h : st.count = ((st.cells ∩ M).card : ℤ))
    (hDs : ∀ c ∈ Ds, c ∉ M) (hDm : Dm ⊆ M) :
    ((st.mark_safes Ds).mark_mines Dm).count =
      ((((st.mark_safes Ds).mark_mines Dm).cells ∩ M).card : ℤ) := by
  show st.count - (((st.cells \ Ds) ∩ Dm).card : ℤ) =
    ((((st.cells \ Ds) \ Dm) ∩ M).card : ℤ)
  have hXM : (st.cells \ Ds) ∩ M = st.cells ∩ M := by
    ext c
    simp only [Finset.mem_inter, Finset.mem_sdiff]
    constructor
    · rintro ⟨⟨h1, -⟩, h2⟩
      exact ⟨h1, h2⟩
    · rintro ⟨h1, h2⟩
      exact ⟨⟨h1, fun hc => hDs c hc h2⟩, h2⟩
  have hXDm_sub : (st.cells \ Ds) ∩ Dm ⊆ (st.cells \ Ds) ∩ M :=
    Finset.inter_subset_inter subset_rfl hDm
  have hsplit : ((st.cells \ Ds) \ Dm) ∩ M =
      ((st.cells \ Ds) ∩ M) \ ((st.cells \ Ds) ∩ Dm) := by
    ext c
    simp only [Finset.mem_inter, Finset.mem_sdiff]
    tauto
  rw [h, ← hXM, hsplit, Finset.card_sdiff hXDm_sub,
    Nat.cast_sub (Finset.card_le_card hXDm_sub)]

/-- One pass preserves satisfaction by `M`. -/
lemma pass_satisfied {ai : AI} {M : Finset Cell}
    (hsat : SatisfiedBy ai.knowledge M) :
    SatisfiedBy (ai.updatePass).1.knowledge M := by
  have hmidsat : SatisfiedBy ai.knowledgeMid M := by
    intro st hst
    simp only [AI.knowledgeMid, List.mem_filter, List.mem_map] at hst
    obtain ⟨⟨s, hs, rfl⟩, -⟩ := hst
    exact mark_count_sound (hsat s hs) (dSafes_sound hsat)
      (fun c hc => dMines_sound hsat c hc)
  intro st hst
  have hst2 : st ∈ ai.knowledgeMid ++ inferNew ai.knowledgeMid := hst
  rcases List.mem_append.mp hst2 with h | h
  · exact hmidsat st h
  · obtain ⟨-, -, s1, hs1, s2, hs2, -, hsub, rfl⟩ := mem_inferNew_elim h
    show s1.count - s2.count = _
    rw [hmidsat s1 hs1, hmidsat s2 hs2]
    have hsub2 : s2.cells ∩ M ⊆ s1.cells ∩ M :=
      Finset.inter_subset_inter hsub subset_rfl
    have hsplit : (s1.cells \ s2.cells) ∩ M =
        (s1.cells ∩ M) \ (s2.cells ∩ M) := by
      ext c
      simp only [Finset.mem_inter, Finset.mem_sdiff]
      tauto
    rw [hsplit, Finset.card_sdiff hsub2,
      Nat.cast_sub (Finset.card_le_card hsub2)]

/-- After a pass every sentence is non-empty. -/
lemma pass_nonempty {ai : AI} :
    ∀ st ∈ (ai.updatePass).1.knowledge, st.cells ≠ ∅ := by
  intro st hst
  have hst2 : st ∈ ai.knowledgeMid ++ inferNew ai.knowledgeMid := hst
  rcases List.mem_append.mp hst2 with h | h
  · exact of_decide_eq_true (List.mem_filter.mp h).2
  · exact (mem_inferNew_elim h).2.1

/-- A pass never introduces new cells. -/
lemma pass_cells_subset {ai : AI} :
    cellsOf (ai.updatePass).1.knowledge ⊆ cellsOf ai.knowledge := by
  intro c hc
  rw [mem_cellsOf] at hc ⊢
  obtain ⟨st, hst, hcst⟩ := hc
  have hst2 : st ∈ ai.knowledgeMid ++ inferNew ai.knowledgeMid := hst
  rcases List.mem_append.mp hst2 with h | h
  · simp only [AI.knowledgeMid, List.mem_filter, List.mem_map] at h
    obtain ⟨⟨s, hs, rfl⟩, -⟩ := h
    have hc2 : c ∈ (s.cells \ ai.dSafesOf) \ ai.dMinesOf := hcst
    exact ⟨s, hs, (Finset.mem_sdiff.mp (Finset.mem_sdiff.mp hc2).1).1⟩
  · obtain ⟨-, -, s1, hs1, s2, hs2, -, -, rfl⟩ := mem_inferNew_elim h
    have hc1 : c ∈ s1.cells := (Finset.mem_sdiff.mp hcst).1
    simp only [AI.knowledgeMid, List.mem_filter, List.mem_map] at hs1
    obtain ⟨⟨s, hs, rfl⟩, -⟩ := hs1
    have hc2 : c ∈ (s.cells \ ai.dSafesOf) \ ai.dMinesOf := hc1
    exact ⟨s, hs, (Finset.mem_sdiff.mp (Finset.mem_sdiff.mp hc2).1).1⟩

/-- The safes marked in a pass come from sentence cells. -/
lemma dSafes_subset_cells {ai : AI} : ai.dSafesOf ⊆ cellsOf ai.knowledge := by
  intro c hc
  have hc2 := (Finset.mem_sdiff.mp hc).1
  rcases (mem_foldl_union ai.knowledge ∅ c).mp hc2 with h | ⟨st, hst, h⟩
  · exact absurd h (Finset.not_mem_empty c)
  · rw [mem_cellsOf]
    refine ⟨st, hst, ?_⟩
    unfold Sentence.known_safes at h
    split_ifs at h
    · exact h
    · exact absurd h (Finset.not_mem_empty c)

/-- The mines marked in a pass come from sentence cells. -/
lemma dMines_subset_cells {ai : AI} : ai.dMinesOf ⊆ cellsOf ai.knowledge := by
  intro c hc
  have hc2 := (Finset.mem_sdiff.mp hc).1
  rcases (mem_foldl_union ai.knowledge ∅ c).mp hc2 with h | ⟨st, hst, h⟩
  · exact absurd h (Finset.not_mem_empty c)
  · rw [mem_cellsOf]
    refine ⟨st, hst, ?_⟩
    unfold Sentence.known_mines at h
    split_ifs at h
    · exact h
    · exact absurd h (Finset.not_mem_empty c)

/-- The finite space of all sentences over a universe of cells whose count is
between 0 and the number of cells.  All sentences of a satisfied knowledge
base over this universe live here. -/
def sentenceSpace (univ : Finset Cell) : Finset Sentence :=
  univ.powerset.biUnion
    (fun S => (Finset.Icc (0 : ℤ) (S.card : ℤ)).image (fun c => ⟨S, c⟩))

/-- Membership in `sentenceSpace`. -/
lemma mem_sentenceSpace {univ : Finset Cell} {st : Sentence} :
    st ∈ sentenceSpace univ ↔
      st.cells ⊆ univ ∧ 0 ≤ st.count ∧ st.count ≤ (st.cells.card : ℤ) := by
  unfold sentenceSpace
  rw [Finset.mem_biUnion]
  constructor
  · rintro ⟨S, hS, hst⟩
    rw [Finset.mem_image] at hst
    obtain ⟨c, hc, rfl⟩ := hst
    rw [Finset.mem_Icc] at hc
    exact ⟨Finset.mem_powerset.mp hS, hc.1, hc.2⟩
  · rintro ⟨h1, h2, h3⟩
    refine ⟨st.cells, Finset.mem_powerset.mpr h1, ?_⟩
    rw [Finset.mem_image]
    exact ⟨st.count, Finset.mem_Icc.mpr ⟨h2, h3⟩, rfl⟩

/-- Termination measure for the `update_knowledge` loop over a fixed
universe: cells not yet known safe plus cells not yet known mines
(lexicographically dominant), then sentences of the space not yet in the
knowledge base. -/
def measureOf (univ : Finset Cell) (ai : AI) : ℕ :=
  ((univ \ ai.safes).card + (univ \ ai.mines).card) *
      ((sentenceSpace univ).card + 1) +
    ((sentenceSpace univ) \ ai.knowledge.toFinset).card

/-- When a pass marks nothing, the marking-and-filtering phase is the
identity on a knowledge base of non-empty sentences. -/
lemma knowledgeMid_no_mark {ai : AI} (hS : ai.dSafesOf = ∅)
    (hM : ai.dMinesOf = ∅) (hne : ∀ st ∈ ai.knowledge, st.cells ≠ ∅) :
    ai.knowledgeMid = ai.knowledge := by
  unfold AI.knowledgeMid
  rw [hS, hM]
  have hmap : ai.knowledge.map
      (fun s : Sentence => (s.mark_safes ∅).mark_mines ∅) = ai.knowledge := by
    simp [Sentence.mark_safes_empty, Sentence.mark_mines_empty]
  rw [hmap, List.filter_eq_self]
  intro st hst
  exact decide_eq_true (hne st hst)

/-- The crux of termination: on a satisfied, non-empty-sentence state whose
cells lie in `univ`, a pass that reports a change strictly decreases the
measure. -/
lemma pass_measure_lt {univ M : Finset Cell} {ai : AI}
    (hsat : SatisfiedBy ai.knowledge M)
    (hne : ∀ st ∈ ai.knowledge, st.cells ≠ ∅)
    (huniv : cellsOf ai.knowledge ⊆ univ)
    (hflag : (ai.updatePass).2 = true) :
    measureOf univ (ai.updatePass).1 < measureOf univ ai := by
  have hsafes : (ai.updatePass).1.safes = ai.safes ∪ ai.dSafesOf := rfl
  have hmines : (ai.updatePass).1.mines = ai.mines ∪ ai.dMinesOf := rfl
  have hkn : (ai.updatePass).1.knowledge =
    ai.knowledgeMid ++ inferNew ai.knowledgeMid := rfl
  by_cases hmark : ai.dSafesOf = ∅ ∧ ai.dMinesOf = ∅
  · obtain ⟨hS, hM⟩ := hmark
    have hmid : ai.knowledgeMid = ai.knowledge := knowledgeMid_no_mark hS hM hne
    have hfresh : inferNew ai.knowledge ≠ [] := by
      have hflag2 : (decide (ai.dSafesOf ≠ ∅) || decide (ai.dMinesOf ≠ ∅) ||
        decide (inferNew ai.knowledgeMid ≠ [])) = true := hflag
      rw [hmid, hS, hM] at hflag2
      simpa using hflag2
    have hsafes2 : (ai.updatePass).1.safes = ai.safes := by
      rw [hsafes, hS, Finset.union_empty]
    have hmines2 : (ai.updatePass).1.mines = ai.mines := by
      rw [hmines, hM, Finset.union_empty]
    obtain ⟨x, hx⟩ : ∃ x, x ∈ inferNew ai.knowledge := by
      cases hq : inferNew ai.knowledge with
      | nil => exact absurd hq hfresh
      | cons a t => exact ⟨a, hq ▸ List.mem_cons_self a t⟩
    obtain ⟨hxnot, -, s1, hs1, s2, hs2, -, hsub, hxeq⟩ := mem_inferNew_elim hx
    have hxmem : x ∈ (ai.updatePass).1.knowledge := by
      rw [hkn, hmid]
      exact List.mem_append_right _ hx
    have hsatx : x.count = ((x.cells ∩ M).card : ℤ) :=
      pass_satisfied hsat x hxmem
    have hxspace : x ∈ sentenceSpace univ := by
      rw [mem_sentenceSpace]
      refine ⟨?_, ?_, ?_⟩
      · subst hxeq
        intro c hc
        have hc1 : c ∈ s1.cells := (Finset.mem_sdiff.mp hc).1
        exact huniv ((mem_cellsOf _ c).mpr ⟨s1, hs1, hc1⟩)
      · rw [hsatx]
        exact Int.natCast_nonneg _
      · rw [hsatx]
        exact_mod_cast Finset.card_le_card Finset.inter_subset_left
    have hsubB : sentenceSpace univ \ (ai.updatePass).1.knowledge.toFinset ⊆
        sentenceSpace univ \ ai.knowledge.toFinset := by
      intro y hy
      rw [Finset.mem_sdiff] at hy ⊢
      refine ⟨hy.1, fun hyk => hy.2 ?_⟩
      rw [List.mem_toFinset] at hyk ⊢
      rw [hkn, hmid]
      exact List.mem_append_left _ hyk
    have hbsub : sentenceSpace univ \ (ai.updatePass).1.knowledge.toFinset ⊂
        sentenceSpace univ \ ai.knowledge.toFinset := by
      refine (Finset.ssubset_iff_of_subset hsubB).mpr ⟨x, ?_, ?_⟩
      · rw [Finset.mem_sdiff, List.mem_toFinset]
        exact ⟨hxspace, hxnot⟩
      · rw [Finset.mem_sdiff, List.mem_toFinset]
        rintro ⟨-, hcon⟩
        exact hcon hxmem
    have hblt := Finset.card_lt_card hbsub
    unfold measureOf
    rw [hsafes2, hmines2]
    exact Nat.add_lt_add_left hblt _
  · have hsafes_sub : univ \ (ai.updatePass).1.safes ⊆ univ \ ai.safes := by
      rw [hsafes]
      intro y hy
      rw [Finset.mem_sdiff] at hy ⊢
      exact ⟨hy.1, fun h => hy.2 (Finset.mem_union_left _ h)⟩
    have hmines_sub : univ \ (ai.updatePass).1.mines ⊆ univ \ ai.mines := by
      rw [hmines]
      intro y hy
      rw [Finset.mem_sdiff] at hy ⊢
      exact ⟨hy.1, fun h => hy.2 (Finset.mem_union_left _ h)⟩
    have hstrict : (univ \ (ai.updatePass).1.safes).card +
        (univ \ (ai.updatePass).1.mines).card <
        (univ \ ai.safes).card + (univ \ ai.mines).card := by
      rcases not_and_or.mp hmark with hS | hM
      · obtain ⟨c, hc⟩ := Finset.nonempty_iff_ne_empty.mpr hS
        have hcuniv : c ∈ univ := huniv (dSafes_subset_cells hc)
        have hcnot : c ∉ ai.safes := (Finset.mem_sdiff.mp hc).2
        have h1 : univ \ (ai.updatePass).1.safes ⊂ univ \ ai.safes := by
          refine (Finset.ssubset_iff_of_subset hsafes_sub).mpr ⟨c, ?_, ?_⟩
          · exact Finset.mem_sdiff.mpr ⟨hcuniv, hcnot⟩
          · rw [Finset.mem_sdiff, hsafes]
            rintro ⟨-, hcon⟩
            exact hcon (Finset.mem_union_right _ hc)
        have h2 := Finset.card_lt_card h1
        have h3 := Finset.card_le_card hmines_sub
        omega
      · obtain ⟨c, hc⟩ := Finset.nonempty_iff_ne_empty.mpr hM
        have hcuniv : c ∈ univ := huniv (dMines_subset_cells hc)
        have hcnot : c ∉ ai.mines := (Finset.mem_sdiff.mp hc).2
        have h1 : univ \ (ai.updatePass).1.mines ⊂ univ \ ai.mines := by
          refine (Finset.ssubset_iff_of_subset hmines_sub).mpr ⟨c, ?_, ?_⟩
          · exact Finset.mem_sdiff.mpr ⟨hcuniv, hcnot⟩
          · rw [Finset.mem_sdiff, hmines]
            rintro ⟨-, hcon⟩
            exact hcon (Finset.mem_union_right _ hc)
        have h2 := Finset.card_lt_card h1
        have h3 := Finset.card_le_card hsafes_sub
        omega
    have hble : ((sentenceSpace univ) \
        (ai.updatePass).1.knowledge.toFinset).card ≤ (sentenceSpace univ).card :=
      Finset.card_le_card Finset.sdiff_subset
    unfold measureOf
    calc ((univ \ (ai.updatePass).1.safes).card +
          (univ \ (ai.updatePass).1.mines).card) * ((sentenceSpace univ).card + 1) +
          ((sentenceSpace univ) \ (ai.updatePass).1.knowledge.toFinset).card
        < ((univ \ (ai.updatePass).1.safes).card +
          (univ \ (ai.updatePass).1.mines).card) * ((sentenceSpace univ).card + 1) +
          ((sentenceSpace univ).card + 1) :=
          Nat.add_lt_add_left (Nat.lt_succ_of_le hble) _
      _ = ((univ \ (ai.updatePass).1.safes).card +
          (univ \ (ai.updatePass).1.mines).card + 1) * ((sentenceSpace univ).card + 1) :=
          (Nat.succ_mul _ _).symm
      _ ≤ ((univ \ ai.safes).card + (univ \ ai.mines).card) *
          ((sentenceSpace univ).card + 1) :=
          Nat.mul_le_mul_right _ (Nat.succ_le_of_lt hstrict)
      _ ≤ ((univ \ ai.safes).card + (univ \ ai.mines).card) *
          ((sentenceSpace univ).card + 1) +
          ((sentenceSpace univ) \ ai.knowledge.toFinset).card :=
          Nat.le_add_right _ _

/-- Fuel bounded by the measure suffices for the loop to converge. -/
lemma loop_fuel_of_measure {univ M : Finset Cell} :
    ∀ (n : ℕ) (ai : AI), measureOf univ ai ≤ n →
      SatisfiedBy ai.knowledge M →
      (∀ st ∈ ai.knowledge, st.cells ≠ ∅) →
      cellsOf ai.knowledge ⊆ univ →
      ∃ (fuel : ℕ) (s : AI), AI.updateLoop fuel ai = some s := by
  intro n
  induction n with
  | zero =>
    intro ai hm hsat hne huniv
    by_cases hflag : (ai.updatePass).2 = true
    · have := pass_measure_lt hsat hne huniv hflag
      omega
    · refine ⟨1, (ai.updatePass).1, ?_⟩
      show (if (ai.updatePass).2 then AI.updateLoop 0 (ai.updatePass).1
        else some (ai.updatePass).1) = some (ai.updatePass).1
      rw [Bool.not_eq_true] at hflag
      rw [hflag]
      simp
  | succ n ih =>
    intro ai hm hsat hne huniv
    by_cases hflag : (ai.updatePass).2 = true
    · have hlt := pass_measure_lt hsat hne huniv hflag
      obtain ⟨fuel, s, hs⟩ := ih (ai.updatePass).1 (by omega)
        (pass_satisfied hsat) pass_nonempty
        (Finset.Subset.trans pass_cells_subset huniv)
      refine ⟨fuel + 1, s, ?_⟩
      show (if (ai.updatePass).2 then AI.updateLoop fuel (ai.updatePass).1
        else some (ai.updatePass).1) = some s
      rw [hflag]
      simpa using hs
    · refine ⟨1, (ai.updatePass).1, ?_⟩
      show (if (ai.updatePass).2 then AI.updateLoop 0 (ai.updatePass).1
        else some (ai.updatePass).1) = some (ai.updatePass).1
      rw [Bool.not_eq_true] at hflag
      rw [hflag]
      simp

/-- Claim C3 amended: `update_knowledge` terminates whenever the knowledge
base is satisfiable — some mine assignment `M` gives every statement exactly
its count, as is the case for every state built from truthful observations.
(The unrestricted claim, for every finite initial knowledge base, is refuted
by the counterexample: an unsatisfiable base can feed the resolution rule
forever.)  Termination is expressed by the existence of fuel on which the
fuel-indexed loop returns. -/
theorem claim_C3 (ai : AI) (M : Finset Cell)
    (hsat : SatisfiedBy ai.knowledge M) :
    ∃ (fuel : ℕ) (s : AI), AI.updateLoop fuel ai = some s := by
  by_cases hflag : (ai.updatePass).2 = true
  · obtain ⟨fuel, s, hs⟩ := loop_fuel_of_measure
      (measureOf (cellsOf ai.knowledge) (ai.updatePass).1) (ai.updatePass).1
      le_rfl (pass_satisfied hsat) pass_nonempty pass_cells_subset
    refine ⟨fuel + 1, s, ?_⟩
    show (if (ai.updatePass).2 then AI.updateLoop fuel (ai.updatePass).1
      else some (ai.updatePass).1) = some s
    rw [hflag]
    simpa using hs
  · refine ⟨1, (ai.updatePass).1, ?_⟩
    show (if (ai.updatePass).2 then AI.updateLoop 0 (ai.updatePass).1
      else some (ai.updatePass).1) = some (ai.updatePass).1
    rw [Bool.not_eq_true] at hflag
    rw [hflag]
    simp

/-- A 3×3 engine with the satisfiable knowledge base `{(0,0)} = 1`. -/
def satAI : AI := ⟨3, 3, ∅, ∅, ∅, [⟨{((0 : ℤ), (0 : ℤ))}, 1⟩]⟩

/-- Concrete instance of the amended claim C3: on a satisfiable knowledge
base the loop converges. -/
theorem claim_C3_witness :
    ∃ (fuel : ℕ) (s : AI), AI.updateLoop fuel satAI = some s :=
  claim_C3 satAI {((0 : ℤ), (0 : ℤ))}
    (fun st hst => by
      have hst2 : st ∈ [(⟨{((0 : ℤ), (0 : ℤ))}, 1⟩ : Sentence)] := hst
      rw [List.mem_singleton] at hst2
      subst hst2
      decide)
